import Mathlib

/-!
# Verification of the TraceServices string store and its slab allocator

The repository declares `Trace::FStringStore`
(Engine/Source/Developer/TraceServices/Private/Common/StringStore.h): a
deduplicating string interning store backed by `FSlabAllocator`.  The header
fixes the data model — a lookup table `TMap<uint32, const TCHAR*>`
(`StoredStrings`), a bump cursor (`BufferPtr` / `BufferLeft`) and a slab
counter (`BlockCount`) — while the bodies of `FStringStore::Store` and of
`FSlabAllocator` live outside the excerpt.  Their behaviour is therefore
modelled from the specification (spec.md §3, §4.1, §4.2, §7): a slab
allocator handing out bump-allocated, never-moving ranges from fixed-capacity
slabs, and an intern operation that hashes, looks up, and on a miss copies
`length + 1` character units (text plus terminator) into freshly allocated
space.

Characters (`TCHAR`) are modelled as natural numbers, with `0` reserved as
the C-style terminator unit; a text value is a terminator-free list of units,
matching the spec's "C-style null-termination semantics of the stored text".
Memory is a flat address space in which slab `i` occupies the address window
`[i * capacity, (i+1) * capacity)`.
-/

deriving instance DecidableEq for Except

namespace TraceModel

/-- Character unit: the model of `TCHAR`.  The value `0` is the C-style
terminator unit. -/
abbrev TChar := Nat

/-- Allocation failure conditions of the slab allocator (spec.md §7):
`outOfMemory` when the underlying memory system refuses a new slab, and
`invalidRequest` for a request of zero size or larger than one slab's
capacity. -/
inductive EAllocError where
  | outOfMemory
  | invalidRequest
  deriving DecidableEq

/-- Modelled from the spec: the state of `FSlabAllocator` (declared in
StringStore.h, definition absent from the excerpt).  It owns an append-only
sequence of fixed-capacity slabs, modelled as a flat memory list in which
slab `i` is the window `[i * slabCapacity, (i+1) * slabCapacity)`.
`blockCount` and `bufferLeft` are the slab counter and remaining room of the
active slab (the store's `BlockCount` / `BufferLeft` caches of spec.md §3);
`maxSlabs` models the underlying memory system's slab budget, whose
exhaustion yields OutOfMemory; `totalAllocated` is the running total of
units handed out. -/
structure FSlabAllocator where
  slabCapacity : Nat
  maxSlabs : Nat
  blockCount : Nat
  bufferLeft : Nat
  totalAllocated : Nat
  mem : List TChar
  deriving DecidableEq

/-- Address at which the next in-slab allocation would start: the bump
cursor, in flat-memory coordinates. -/
def nextAddr (a : FSlabAllocator) : Nat :=
  a.blockCount * a.slabCapacity - a.bufferLeft

/-- Well-formedness of an allocator state: the remaining room never exceeds
one slab's capacity, the flat memory covers exactly the acquired slabs, and
before any slab is acquired there is no room at all. -/
abbrev WF (a : FSlabAllocator) : Prop :=
  a.bufferLeft ≤ a.slabCapacity ∧
  a.mem.length = a.blockCount * a.slabCapacity ∧
  (a.blockCount = 0 → a.bufferLeft = 0)

/-- Modelled from the spec: `FSlabAllocator` allocation, spec.md §4.1.  A
request must be positive and at most one slab's capacity; if the active slab
has enough remaining room the range is served there and the cursor advances,
otherwise a brand-new slab is acquired (failing with OutOfMemory when the
underlying system's budget is exhausted) and the request is served from its
start. -/
def allocate (a : FSlabAllocator) (size : Nat) :
    Except EAllocError (Nat × FSlabAllocator) :=
  if size = 0 then Except.error EAllocError.invalidRequest
  else if a.slabCapacity < size then Except.error EAllocError.invalidRequest
  else if size ≤ a.bufferLeft then
    Except.ok (nextAddr a,
      { a with bufferLeft := a.bufferLeft - size,
               totalAllocated := a.totalAllocated + size })
  else if a.maxSlabs ≤ a.blockCount then Except.error EAllocError.outOfMemory
  else
    Except.ok (a.blockCount * a.slabCapacity,
      { a with blockCount := a.blockCount + 1,
               bufferLeft := a.slabCapacity - size,
               totalAllocated := a.totalAllocated + size,
               mem := a.mem ++ List.replicate a.slabCapacity 0 })

/-- Write a sequence of units into memory starting at an address (the
`memcpy` of the stored text plus terminator). -/
def writeRange (m : List TChar) (addr : Nat) : List TChar → List TChar
  | [] => m
  | c :: cs => writeRange (m.set addr c) (addr + 1) cs

/-- Read `len` units starting at an address; `none` if the range is not
fully inside memory. -/
def readRange (m : List TChar) (addr : Nat) : Nat → Option (List TChar)
  | 0 => some []
  | len + 1 =>
    match m[addr]?, readRange m (addr + 1) len with
    | some c, some cs => some (c :: cs)
    | _, _ => none

/-- Read a C-style string at an address: the units up to (excluding) the
first terminator.  This is how a `const TCHAR*` table entry is compared
against an incoming text. -/
def readCString (m : List TChar) (addr : Nat) : List TChar :=
  List.takeWhile (fun c => c ≠ 0) (m.drop addr)

/-- Modelled from the spec: the state of `Trace::FStringStore`
(StringStore.h lines 14-32).  `storedStrings` models the
`TMap<uint32, const TCHAR*> StoredStrings` lookup table as an association
list from 32-bit content hash to the canonical stored address; the bump
cursor and slab counter live in the referenced allocator (the header's
`BufferPtr` / `BufferLeft` / `BlockCount` are caches of that state,
spec.md §3). -/
structure FStringStore where
  alloc : FSlabAllocator
  storedStrings : List (Nat × Nat)
  deriving DecidableEq

/-- Lookup in the hash table: the address recorded for a hash key, if any
(`TMap::Find`). -/
def findStored : List (Nat × Nat) → Nat → Option Nat
  | [], _ => none
  | (k, v) :: rest, h => if k = h then some v else findStored rest h

/-- Insert into the hash table, replacing an existing entry with the same
hash key (`TMap::Add`). -/
def insertStored : List (Nat × Nat) → Nat → Nat → List (Nat × Nat)
  | [], h, addr => [(h, addr)]
  | (k, v) :: rest, h, addr =>
    if k = h then (h, addr) :: rest else (k, v) :: insertStored rest h addr

/-- Modelled from the spec: the miss path of `FStringStore::Store`
(spec.md §4.2 Step 3, body absent from the excerpt): request `length + 1`
units from the slab allocator, copy the text plus a terminator unit into the
returned range, record the hash-to-reference mapping, and return the new
reference.  An allocator failure propagates and leaves the store state
untouched (spec.md §7: no partial-success state). -/
def internMiss (s : FStringStore) (h : Nat) (t : List TChar) :
    Except EAllocError Nat × FStringStore :=
  match allocate s.alloc (t.length + 1) with
  | Except.error e => (Except.error e, s)
  | Except.ok (addr, a) =>
    (Except.ok addr,
      { alloc := { a with mem := writeRange a.mem addr (t ++ [0]) },
        storedStrings := insertStored s.storedStrings h addr })

/-- Modelled from the spec: `FStringStore::Store(const FStringView&)`
(spec.md §4.2, body absent from the excerpt).  Compute the 32-bit content
hash (the hash function itself is a parameter `hashF`, reduced modulo
`2 ^ 32`), look it up in `storedStrings`; on a match confirm content
equality against the stored text (the spec's recommended collision policy)
and return the existing reference with no allocation; otherwise take the
miss path. -/
def intern (hashF : List TChar → Nat) (s : FStringStore) (t : List TChar) :
    Except EAllocError Nat × FStringStore :=
  match findStored s.storedStrings (hashF t % 4294967296) with
  | some addr =>
    if readCString s.alloc.mem addr = t then (Except.ok addr, s)
    else internMiss s (hashF t % 4294967296) t
  | none => internMiss s (hashF t % 4294967296) t

/-- Reference returned by an intern call. -/
def internRef (hashF : List TChar → Nat) (s : FStringStore) (t : List TChar) :
    Except EAllocError Nat :=
  (intern hashF s t).1

/-- Store state after an intern call. -/
def internSt (hashF : List TChar → Nat) (s : FStringStore) (t : List TChar) :
    FStringStore :=
  (intern hashF s t).2

/-- Modelled from the spec: `FStringStore::Store(const TCHAR*)` (declared in
StringStore.h line 18, body absent from the excerpt): the raw-pointer
overload reads the null-terminated buffer at the pointer — the units up to
the first terminator — and interns that text through the string-view
overload. -/
def storeCString (hashF : List TChar → Nat) (s : FStringStore)
    (buf : List TChar) : Except EAllocError Nat × FStringStore :=
  intern hashF s (List.takeWhile (fun c => c ≠ 0) buf)

/-- Fold a sequence of intern calls, keeping only the final store state. -/
def internList (hashF : List TChar → Nat) (s : FStringStore) :
    List (List TChar) → FStringStore
  | [] => s
  | t :: ts => internList hashF (intern hashF s t).2 ts

/-- Run a sequence of intern calls, collecting the per-call results and the
final store state. -/
def internTrace (hashF : List TChar → Nat) (s : FStringStore) :
    List (List TChar) → List (Except EAllocError Nat) × FStringStore
  | [] => ([], s)
  | t :: ts =>
    let r := intern hashF s t
    let rest := internTrace hashF r.2 ts
    (r.1 :: rest.1, rest.2)

/-- Run a sequence of raw `allocate` calls, collecting the successfully
returned ranges (start address and size) and the final allocator state;
failed calls return no range and leave the state unchanged. -/
def runAllocs (a : FSlabAllocator) : List Nat → List (Nat × Nat) × FSlabAllocator
  | [] => ([], a)
  | size :: rest =>
    match allocate a size with
    | Except.error _ => runAllocs a rest
    | Except.ok (addr, a1) =>
      ((addr, size) :: (runAllocs a1 rest).1, (runAllocs a1 rest).2)

/-- Two half-open ranges, each given as start address and size, do not
overlap. -/
abbrev RangesDisjoint (r1 r2 : Nat × Nat) : Prop :=
  r1.1 + r1.2 ≤ r2.1 ∨ r2.1 + r2.2 ≤ r1.1

/-- A range lies entirely inside the address window of a single slab of the
given capacity. -/
def WithinOneSlab (cap : Nat) (r : Nat × Nat) : Prop :=
  ∃ i, i * cap ≤ r.1 ∧ r.1 + r.2 ≤ (i + 1) * cap

/-- Fresh allocator over slabs of `cap` units, with a budget of `maxSlabs`
slabs from the underlying memory system: no slab acquired yet, no room
(StringStore.h lines 28-30: `BufferPtr = nullptr`, `BufferLeft = 0`,
`BlockCount = 0`). -/
def initAllocator (cap maxSlabs : Nat) : FSlabAllocator :=
  { slabCapacity := cap, maxSlabs := maxSlabs, blockCount := 0,
    bufferLeft := 0, totalAllocated := 0, mem := [] }

/-- Fresh store over a fresh allocator: empty lookup table. -/
def initStore (cap maxSlabs : Nat) : FStringStore :=
  { alloc := initAllocator cap maxSlabs, storedStrings := [] }

/-- Store invariant: the allocator is well-formed and every lookup-table
entry points at a properly stored terminator-free text lying entirely below
the bump cursor. -/
def GoodStore (s : FStringStore) : Prop :=
  WF s.alloc ∧
  ∀ p ∈ s.storedStrings, ∃ u : List TChar, 0 ∉ u ∧
    p.2 + u.length + 1 ≤ nextAddr s.alloc ∧
    readRange s.alloc.mem p.2 (u.length + 1) = some (u ++ [0])

/-- Constant hash function: every pair of texts collides.  Used to witness
collision behaviour. -/
def hashZero : List TChar → Nat := fun _ => 0

/-- Deterministic djb2-style 32-bit content hash, used by the concrete
end-to-end scenario (the source's concrete hash function is outside the
excerpt; any deterministic hash realizes the scenario). -/
def hashScenario (t : List TChar) : Nat :=
  t.foldl (fun h c => (h * 33 + c) % 4294967296) 5381

/-- End-to-end scenario store: slab capacity 16 units, slab budget 4. -/
def scen0 : FStringStore := initStore 16 4

/-- The scenario text "ab". -/
def textAB : List TChar := [97, 98]

/-- Scenario store after interning "ab" once. -/
def scen1 : FStringStore := internSt hashScenario scen0 textAB

/-- Scenario store after interning "ab" twice. -/
def scen2 : FStringStore := internSt hashScenario scen1 textAB

/-- A 20-unit text (20 character units, 21 including the terminator). -/
def text20 : List TChar := List.replicate 20 99

/-- A 14-unit text (15 units including the terminator). -/
def text14 : List TChar := List.replicate 14 99

/-- A mid-life allocator used to witness the slab growth boundary: capacity
4, budget 2, one slab acquired, 3 units of room left. -/
def allocWitness : FSlabAllocator :=
  { slabCapacity := 4, maxSlabs := 2, blockCount := 1, bufferLeft := 3,
    totalAllocated := 1, mem := [5, 0, 0, 0] }

/-! ## Memory lemmas -/

theorem writeRange_length (cs : List TChar) (m : List TChar) (addr : Nat) :
    (writeRange m addr cs).length = m.length := by
  induction cs generalizing m addr with
  | nil => rfl
  | cons c cs ih =>
    rw [writeRange, ih (m.set addr c) (addr + 1), List.length_set]

theorem writeRange_getElem_lt (cs : List TChar) (m : List TChar) (addr i : Nat)
    (h : i < addr) : (writeRange m addr cs)[i]? = m[i]? := by
  induction cs generalizing m addr with
  | nil => rfl
  | cons c cs ih =>
    rw [writeRange, ih (m.set addr c) (addr + 1) (by omega),
      List.getElem?_set_ne (by omega)]

theorem readRange_agree (len : Nat) (m m' : List TChar) (addr : Nat)
    (h : ∀ j, addr ≤ j → j < addr + len → m'[j]? = m[j]?) :
    readRange m' addr len = readRange m addr len := by
  induction len generalizing addr with
  | zero => rfl
  | succ n ih =>
    rw [readRange, readRange, h addr le_rfl (by omega),
      ih (addr + 1) (fun j h1 h2 => h j (by omega) (by omega))]

theorem readRange_writeRange (cs : List TChar) (m : List TChar) (addr : Nat)
    (h : addr + cs.length ≤ m.length) :
    readRange (writeRange m addr cs) addr cs.length = some cs := by
  induction cs generalizing m addr with
  | nil => rfl
  | cons c cs ih =>
    have hm : addr < m.length := by simp only [List.length_cons] at h; omega
    have hset : (m.set addr c).length = m.length := List.length_set m addr c
    rw [writeRange, List.length_cons, readRange]
    have h1 : (writeRange (m.set addr c) (addr + 1) cs)[addr]? = some c := by
      rw [writeRange_getElem_lt cs (m.set addr c) (addr + 1) addr
        (Nat.lt_succ_self addr)]
      exact List.getElem?_set_self (by omega)
    rw [h1, ih (m.set addr c) (addr + 1)
      (by rw [hset]; simp only [List.length_cons] at h; omega)]

theorem readRange_head (m : List TChar) (addr len : Nat) (l : List TChar)
    (h : readRange m addr (len + 1) = some l) :
    ∃ c cs, l = c :: cs ∧ m[addr]? = some c ∧
      readRange m (addr + 1) len = some cs := by
  rw [readRange] at h
  cases hc : m[addr]? with
  | none => rw [hc] at h; simp at h
  | some c =>
    cases hr : readRange m (addr + 1) len with
    | none => rw [hc, hr] at h; simp at h
    | some cs =>
      rw [hc, hr] at h
      simp only [Option.some_inj] at h
      exact ⟨c, cs, h.symm, rfl, rfl⟩

theorem readRange_length_eq (len : Nat) (m : List TChar) (addr : Nat)
    (l : List TChar) (h : readRange m addr len = some l) : l.length = len := by
  induction len generalizing addr l with
  | zero => rw [readRange] at h; simp only [Option.some_inj] at h; simp [← h]
  | succ n ih =>
    obtain ⟨c, cs, rfl, -, hr⟩ := readRange_head m addr n l h
    simp [ih (addr + 1) cs hr]

theorem readRange_take (k : Nat) (n : Nat) (m : List TChar) (addr : Nat)
    (l : List TChar) (h : readRange m addr n = some l) (hk : k ≤ n) :
    readRange m addr k = some (l.take k) := by
  induction k generalizing n addr l with
  | zero => rfl
  | succ k ih =>
    match n, hk with
    | n + 1, hk =>
      obtain ⟨c, cs, rfl, hc, hr⟩ := readRange_head m addr n _ h
      rw [readRange, hc, ih n (addr + 1) cs hr (by omega)]
      simp

theorem readCString_of_readRange (u : List TChar) (m : List TChar) (addr : Nat)
    (h : readRange m addr (u.length + 1) = some (u ++ [0])) (hu : 0 ∉ u) :
    readCString m addr = u := by
  induction u generalizing addr with
  | nil =>
    obtain ⟨c, cs, hl, hc, -⟩ := readRange_head m addr 0 _ h
    simp only [List.nil_append, List.cons.injEq] at hl
    have hlt : addr < m.length := by
      by_contra hge
      rw [List.getElem?_eq_none (by omega)] at hc
      exact Option.noConfusion hc
    have hval : m[addr] = 0 := by
      rw [List.getElem?_eq_getElem hlt] at hc
      simpa [hl.1] using hc
    unfold readCString
    rw [List.drop_eq_getElem_cons hlt, List.takeWhile_cons]
    simp [hval]
  | cons c u ih =>
    obtain ⟨c', cs, hl, hc, hr⟩ := readRange_head m addr (u.length + 1) _ h
    simp only [List.cons_append, List.cons.injEq] at hl
    have hlt : addr < m.length := by
      by_contra hge
      rw [List.getElem?_eq_none (by omega)] at hc
      exact Option.noConfusion hc
    have hval : m[addr] = c := by
      rw [List.getElem?_eq_getElem hlt] at hc
      simpa [hl.1] using hc
    have hcne : c ≠ 0 := fun hz => hu (by simp [hz])
    have hrec : readCString m (addr + 1) = u := by
      refine ih (addr + 1) ?_ (fun hz => hu (by simp [hz]))
      rw [hr, hl.2]
    unfold readCString at hrec ⊢
    rw [List.drop_eq_getElem_cons hlt, List.takeWhile_cons, hval]
    simp only [ne_eq, decide_not] at hrec ⊢
    simp [hcne, hrec]

/-! ## Lookup-table lemmas -/

theorem findStored_insertStored_self (tbl : List (Nat × Nat)) (h addr : Nat) :
    findStored (insertStored tbl h addr) h = some addr := by
  induction tbl with
  | nil => simp [insertStored, findStored]
  | cons p rest ih =>
    obtain ⟨k, v⟩ := p
    by_cases hk : k = h
    · simp [insertStored, hk, findStored]
    · simp [insertStored, hk, findStored, ih]

theorem mem_insertStored (tbl : List (Nat × Nat)) (h addr : Nat)
    (p : Nat × Nat) (hp : p ∈ insertStored tbl h addr) :
    p = (h, addr) ∨ p ∈ tbl := by
  induction tbl with
  | nil => simpa [insertStored] using hp
  | cons q rest ih =>
    obtain ⟨k, v⟩ := q
    by_cases hk : k = h
    · simp only [insertStored, if_pos hk, List.mem_cons] at hp
      rcases hp with hp | hp
      · exact Or.inl hp
      · exact Or.inr (List.mem_cons_of_mem _ hp)
    · simp only [insertStored, if_neg hk, List.mem_cons] at hp
      rcases hp with hp | hp
      · exact Or.inr (by simp [hp])
      · rcases ih hp with hp | hp
        · exact Or.inl hp
        · exact Or.inr (List.mem_cons_of_mem _ hp)

theorem findStored_mem (tbl : List (Nat × Nat)) (h addr : Nat)
    (hf : findStored tbl h = some addr) : (h, addr) ∈ tbl := by
  induction tbl with
  | nil => simp [findStored] at hf
  | cons q rest ih =>
    obtain ⟨k, v⟩ := q
    by_cases hk : k = h
    · rw [findStored, if_pos hk] at hf
      simp only [Option.some_inj] at hf
      simp [hk, hf]
    · rw [findStored, if_neg hk] at hf
      exact List.mem_cons_of_mem _ (ih hf)

/-! ## Allocator lemmas -/

theorem allocate_ok_spec {a : FSlabAllocator} {size addr : Nat}
    {a' : FSlabAllocator} (hwf : WF a)
    (h : allocate a size = Except.ok (addr, a')) :
    0 < size ∧ size ≤ a.slabCapacity ∧
    a'.slabCapacity = a.slabCapacity ∧ a'.maxSlabs = a.maxSlabs ∧
    WF a' ∧
    nextAddr a ≤ addr ∧ addr + size = nextAddr a' ∧
    a.blockCount ≤ a'.blockCount ∧
    a'.totalAllocated = a.totalAllocated + size ∧
    a.mem.length ≤ a'.mem.length ∧
    (∀ j, j < a.mem.length → a'.mem[j]? = a.mem[j]?) ∧
    WithinOneSlab a.slabCapacity (addr, size) := by
  obtain ⟨hbl, hlen, hz⟩ := hwf
  unfold allocate at h
  split at h
  · exact absurd h (by simp)
  split at h
  · exact absurd h (by simp)
  split at h
  case isTrue hsz hcap hroom =>
    -- served from the active slab
    simp only [Except.ok.injEq, Prod.mk.injEq] at h
    obtain ⟨haddr, ha'⟩ := h
    have hpos : 0 < size := Nat.pos_of_ne_zero hsz
    have hbc : 0 < a.blockCount := by
      by_contra hb
      have h0 : a.blockCount = 0 := by omega
      have := hz h0
      omega
    have hcapB : a.slabCapacity ≤ a.blockCount * a.slabCapacity :=
      Nat.le_mul_of_pos_left a.slabCapacity hbc
    subst haddr
    subst ha'
    refine ⟨hpos, by omega, rfl, rfl,
      ⟨show a.bufferLeft - size ≤ a.slabCapacity by omega,
       by simpa using hlen,
       show a.blockCount = 0 → a.bufferLeft - size = 0 by
         intro h0; have := hz h0; omega⟩,
      le_rfl, ?_, le_rfl, rfl, le_rfl, fun j _ => rfl, ?_⟩
    · simp only [nextAddr]
      omega
    · obtain ⟨k, hk⟩ : ∃ k, a.blockCount = k + 1 :=
        ⟨a.blockCount - 1, by omega⟩
      refine ⟨k, ?_, ?_⟩ <;>
        simp only [nextAddr, hk, Nat.succ_mul] <;> omega
  case isFalse hsz hcap hroom =>
    split at h
    · exact absurd h (by simp)
    case isFalse hbudget =>
      -- a brand-new slab is acquired
      simp only [Except.ok.injEq, Prod.mk.injEq] at h
      obtain ⟨haddr, ha'⟩ := h
      have hpos : 0 < size := Nat.pos_of_ne_zero hsz
      have hcap' : size ≤ a.slabCapacity := by omega
      subst haddr
      subst ha'
      refine ⟨hpos, hcap', rfl, rfl,
        ⟨Nat.sub_le _ _,
         by simp [hlen, List.length_replicate, Nat.succ_mul],
         by simp⟩,
        Nat.sub_le _ _, ?_, Nat.le_succ _, rfl,
        by simp [List.length_append], ?_, ?_⟩
      · simp only [nextAddr, Nat.succ_mul]
        omega
      · intro j hj
        exact List.getElem?_append_left hj
      · refine ⟨a.blockCount, le_rfl, ?_⟩
        simp only [Nat.succ_mul]
        omega

/-! ## Store step lemmas -/

theorem nextAddr_le_length {a : FSlabAllocator} (hwf : WF a) :
    nextAddr a ≤ a.mem.length := by
  obtain ⟨-, hlen, -⟩ := hwf
  simp only [nextAddr, hlen.symm]
  omega

theorem internMiss_spec (s : FStringStore) (h : Nat) (t : List TChar)
    (hg : GoodStore s) (ht : 0 ∉ t) :
    GoodStore (internMiss s h t).2 ∧
    (internMiss s h t).2.alloc.slabCapacity = s.alloc.slabCapacity ∧
    (internMiss s h t).2.alloc.maxSlabs = s.alloc.maxSlabs ∧
    nextAddr s.alloc ≤ nextAddr (internMiss s h t).2.alloc ∧
    s.alloc.blockCount ≤ (internMiss s h t).2.alloc.blockCount ∧
    s.alloc.mem.length ≤ (internMiss s h t).2.alloc.mem.length ∧
    (∀ j, j < nextAddr s.alloc →
      (internMiss s h t).2.alloc.mem[j]? = s.alloc.mem[j]?) ∧
    (∀ e, (internMiss s h t).1 = Except.error e → (internMiss s h t).2 = s) ∧
    (∀ addr, (internMiss s h t).1 = Except.ok addr →
      readRange (internMiss s h t).2.alloc.mem addr (t.length + 1) =
        some (t ++ [0]) ∧
      addr + t.length + 1 ≤ nextAddr (internMiss s h t).2.alloc ∧
      (internMiss s h t).2.storedStrings = insertStored s.storedStrings h addr ∧
      (internMiss s h t).2.alloc.totalAllocated =
        s.alloc.totalAllocated + (t.length + 1)) := by
  obtain ⟨hwf, hinv⟩ := hg
  cases halloc : allocate s.alloc (t.length + 1) with
  | error e =>
    have hm : internMiss s h t = (Except.error e, s) := by
      unfold internMiss; rw [halloc]
    rw [hm]
    exact ⟨⟨hwf, hinv⟩, rfl, rfl, le_rfl, le_rfl, le_rfl, fun j _ => rfl,
      fun e _ => rfl, fun addr hc => absurd hc (by simp)⟩
  | ok r =>
    obtain ⟨addr, a'⟩ := r
    obtain ⟨hpos, hcap, hcapeq, hmaxeq, hwf', hlo, hhi, hbc, htot, hlgrow,
      hpres, hslab⟩ := allocate_ok_spec hwf halloc
    have hm : internMiss s h t = (Except.ok addr,
        { alloc := { a' with mem := writeRange a'.mem addr (t ++ [0]) },
          storedStrings := insertStored s.storedStrings h addr }) := by
      unfold internMiss; rw [halloc]
    rw [hm]
    have hnext : nextAddr s.alloc ≤ addr := hlo
    have hwlen : (writeRange a'.mem addr (t ++ [0])).length = a'.mem.length :=
      writeRange_length _ _ _
    have hfit : addr + (t ++ [0]).length ≤ a'.mem.length := by
      have := nextAddr_le_length hwf'
      simp only [List.length_append, List.length_singleton]
      omega
    have hread : readRange (writeRange a'.mem addr (t ++ [0])) addr
        (t.length + 1) = some (t ++ [0]) := by
      have := readRange_writeRange (t ++ [0]) a'.mem addr hfit
      simpa using this
    have hpres' : ∀ j, j < nextAddr s.alloc →
        (writeRange a'.mem addr (t ++ [0]))[j]? = s.alloc.mem[j]? := by
      intro j hj
      rw [writeRange_getElem_lt _ _ _ _ (by omega)]
      exact hpres j (by have := nextAddr_le_length hwf; omega)
    refine ⟨⟨⟨hwf'.1, by simpa [hwlen] using hwf'.2.1, hwf'.2.2⟩, ?_⟩,
      hcapeq, hmaxeq,
      show nextAddr s.alloc ≤ nextAddr a' by omega,
      hbc,
      show s.alloc.mem.length ≤ (writeRange a'.mem addr (t ++ [0])).length by
        rw [hwlen]; omega,
      hpres',
      fun e hc => absurd hc (by simp),
      fun addr' hc => ?_⟩
    · -- every table entry of the new store is properly stored
      intro p hp
      rcases mem_insertStored _ _ _ _ hp with hpnew | hpold
      · subst hpnew
        exact ⟨t, ht, show addr + t.length + 1 ≤ nextAddr a' by omega, hread⟩
      · obtain ⟨u, hu0, hub, hur⟩ := hinv p hpold
        refine ⟨u, hu0, show p.2 + u.length + 1 ≤ nextAddr a' by omega, ?_⟩
        rw [← hur]
        exact readRange_agree _ _ _ _ (fun j h1 h2 => hpres' j (by omega))
    · -- the ok conjunct
      simp only [Except.ok.injEq] at hc
      subst hc
      exact ⟨hread,
        show addr + t.length + 1 ≤ nextAddr a' by omega,
        rfl, htot⟩

theorem intern_eq_hit (hashF : List TChar → Nat) (s : FStringStore)
    (t : List TChar) (a0 : Nat)
    (hfind : findStored s.storedStrings (hashF t % 4294967296) = some a0)
    (hcmp : readCString s.alloc.mem a0 = t) :
    intern hashF s t = (Except.ok a0, s) := by
  unfold intern
  rw [hfind]
  show (if readCString s.alloc.mem a0 = t then (Except.ok a0, s)
    else internMiss s (hashF t % 4294967296) t) = (Except.ok a0, s)
  rw [if_pos hcmp]

theorem intern_eq_collision (hashF : List TChar → Nat) (s : FStringStore)
    (t : List TChar) (a0 : Nat)
    (hfind : findStored s.storedStrings (hashF t % 4294967296) = some a0)
    (hcmp : readCString s.alloc.mem a0 ≠ t) :
    intern hashF s t = internMiss s (hashF t % 4294967296) t := by
  unfold intern
  rw [hfind]
  show (if readCString s.alloc.mem a0 = t then (Except.ok a0, s)
    else internMiss s (hashF t % 4294967296) t) =
      internMiss s (hashF t % 4294967296) t
  rw [if_neg hcmp]

theorem intern_eq_nofind (hashF : List TChar → Nat) (s : FStringStore)
    (t : List TChar)
    (hfind : findStored s.storedStrings (hashF t % 4294967296) = none) :
    intern hashF s t = internMiss s (hashF t % 4294967296) t := by
  unfold intern
  rw [hfind]

theorem intern_spec (hashF : List TChar → Nat) (s : FStringStore)
    (t : List TChar) (hg : GoodStore s) (ht : 0 ∉ t) :
    GoodStore (internSt hashF s t) ∧
    (internSt hashF s t).alloc.slabCapacity = s.alloc.slabCapacity ∧
    (internSt hashF s t).alloc.maxSlabs = s.alloc.maxSlabs ∧
    nextAddr s.alloc ≤ nextAddr (internSt hashF s t).alloc ∧
    s.alloc.blockCount ≤ (internSt hashF s t).alloc.blockCount ∧
    s.alloc.mem.length ≤ (internSt hashF s t).alloc.mem.length ∧
    (∀ j, j < nextAddr s.alloc →
      (internSt hashF s t).alloc.mem[j]? = s.alloc.mem[j]?) ∧
    (∀ e, internRef hashF s t = Except.error e → internSt hashF s t = s) ∧
    (∀ addr, internRef hashF s t = Except.ok addr →
      readRange (internSt hashF s t).alloc.mem addr (t.length + 1) =
        some (t ++ [0]) ∧
      addr + t.length + 1 ≤ nextAddr (internSt hashF s t).alloc ∧
      findStored (internSt hashF s t).storedStrings (hashF t % 4294967296) =
        some addr) ∧
    (∀ addr, internRef hashF s t = Except.ok addr →
      (∀ a0, findStored s.storedStrings (hashF t % 4294967296) = some a0 →
        readCString s.alloc.mem a0 ≠ t) →
      (internSt hashF s t).alloc.totalAllocated =
        s.alloc.totalAllocated + (t.length + 1)) := by
  unfold internSt internRef
  cases hfind : findStored s.storedStrings (hashF t % 4294967296) with
  | none =>
    rw [intern_eq_nofind hashF s t hfind]
    obtain ⟨h1, h2, h3, h4, h5, h6, h7, h8, h9⟩ :=
      internMiss_spec s (hashF t % 4294967296) t hg ht
    refine ⟨h1, h2, h3, h4, h5, h6, h7, h8, fun addr hok => ?_,
      fun addr hok _ => (h9 addr hok).2.2.2⟩
    obtain ⟨hr, hb, htbl, -⟩ := h9 addr hok
    exact ⟨hr, hb, by rw [htbl]; exact findStored_insertStored_self _ _ _⟩
  | some a0 =>
    by_cases hcmp : readCString s.alloc.mem a0 = t
    · -- cache hit: the stored text matches
      rw [intern_eq_hit hashF s t a0 hfind hcmp]
      refine ⟨hg, rfl, rfl, le_rfl, le_rfl, le_rfl, fun j _ => rfl,
        fun e hc => absurd hc (by simp),
        fun addr hok => ?_, fun addr hok hmiss => ?_⟩
      · simp only [Except.ok.injEq] at hok
        subst hok
        obtain ⟨u, hu0, hub, hur⟩ := hg.2 _ (findStored_mem _ _ _ hfind)
        have hru : readCString s.alloc.mem a0 = u :=
          readCString_of_readRange u _ _ hur hu0
        rw [hcmp] at hru
        subst hru
        exact ⟨hur, hub, hfind⟩
      · exact absurd hcmp (hmiss a0 rfl)
    · -- hash collision with different content: treated as a miss
      rw [intern_eq_collision hashF s t a0 hfind hcmp]
      obtain ⟨h1, h2, h3, h4, h5, h6, h7, h8, h9⟩ :=
        internMiss_spec s (hashF t % 4294967296) t hg ht
      refine ⟨h1, h2, h3, h4, h5, h6, h7, h8, fun addr hok => ?_,
        fun addr hok _ => (h9 addr hok).2.2.2⟩
      obtain ⟨hr, hb, htbl, -⟩ := h9 addr hok
      exact ⟨hr, hb, by rw [htbl]; exact findStored_insertStored_self _ _ _⟩

theorem internList_spec (hashF : List TChar → Nat) (ts : List (List TChar))
    (s : FStringStore) (hg : GoodStore s) (hts : ∀ u ∈ ts, 0 ∉ u) :
    GoodStore (internList hashF s ts) ∧
    nextAddr s.alloc ≤ nextAddr (internList hashF s ts).alloc ∧
    (∀ j, j < nextAddr s.alloc →
      (internList hashF s ts).alloc.mem[j]? = s.alloc.mem[j]?) := by
  induction ts generalizing s with
  | nil => exact ⟨hg, le_rfl, fun j _ => rfl⟩
  | cons t ts ih =>
    obtain ⟨h1, -, -, h4, -, -, h7, -, -⟩ :=
      intern_spec hashF s t hg (hts t (List.mem_cons_self t ts))
    obtain ⟨g1, g4, g7⟩ := ih (internSt hashF s t) h1
      (fun u hu => hts u (List.mem_cons_of_mem _ hu))
    refine ⟨g1, le_trans h4 g4, ?_⟩
    intro j hj
    have hg7 := g7 j (by omega)
    have h7j := h7 j hj
    show (internList hashF (internSt hashF s t) ts).alloc.mem[j]? =
      s.alloc.mem[j]?
    rw [hg7, h7j]

/-! ## Remaining helper lemmas -/

theorem goodStore_init (cap maxSlabs : Nat) :
    GoodStore (initStore cap maxSlabs) := by
  refine ⟨⟨Nat.zero_le cap, by simp [initStore, initAllocator], fun _ => rfl⟩,
    fun p hp => absurd hp ?_⟩
  simp [initStore]

theorem stored_texts_unique (m : List TChar) (addr : Nat) (t1 t2 : List TChar)
    (h1 : readRange m addr (t1.length + 1) = some (t1 ++ [0]))
    (h2 : readRange m addr (t2.length + 1) = some (t2 ++ [0]))
    (hn1 : 0 ∉ t1) (hn2 : 0 ∉ t2) : t1 = t2 := by
  have e1 := readCString_of_readRange t1 m addr h1 hn1
  have e2 := readCString_of_readRange t2 m addr h2 hn2
  rw [← e1, ← e2]

theorem takeWhile_cstring (l rest : List TChar) (hl : 0 ∉ l) :
    List.takeWhile (fun c => c ≠ 0) (l ++ 0 :: rest) = l := by
  induction l with
  | nil => simp
  | cons c l ih =>
    have hc : c ≠ 0 := fun h => hl (by simp [h])
    have ihl := ih (fun h => hl (List.mem_cons_of_mem _ h))
    simp only [List.cons_append, List.takeWhile_cons]
    simp only [ne_eq, decide_not] at ihl ⊢
    simp [hc, ihl]

theorem allocate_blockCount_mono (b : FSlabAllocator) (sz r : Nat)
    (b' : FSlabAllocator) (h : allocate b sz = Except.ok (r, b')) :
    b.blockCount ≤ b'.blockCount := by
  unfold allocate at h
  split at h
  · exact absurd h (by simp)
  split at h
  · exact absurd h (by simp)
  split at h
  · simp only [Except.ok.injEq, Prod.mk.injEq] at h
    rw [← h.2]
  · split at h
    · exact absurd h (by simp)
    · simp only [Except.ok.injEq, Prod.mk.injEq] at h
      rw [← h.2]
      exact Nat.le_succ _

theorem allocate_grows (b : FSlabAllocator) (sz : Nat) (hpos : 0 < sz)
    (hcap : sz ≤ b.slabCapacity) (hroom : b.bufferLeft < sz)
    (hbudget : b.blockCount < b.maxSlabs) :
    allocate b sz = Except.ok (b.blockCount * b.slabCapacity,
      { b with blockCount := b.blockCount + 1,
               bufferLeft := b.slabCapacity - sz,
               totalAllocated := b.totalAllocated + sz,
               mem := b.mem ++ List.replicate b.slabCapacity 0 }) := by
  unfold allocate
  rw [if_neg (by omega), if_neg (by omega), if_neg (by omega),
    if_neg (by omega)]

theorem allocate_in_slab (b : FSlabAllocator) (sz : Nat) (hpos : 0 < sz)
    (hcap : sz ≤ b.slabCapacity) (hroom : sz ≤ b.bufferLeft) :
    allocate b sz = Except.ok (nextAddr b,
      { b with bufferLeft := b.bufferLeft - sz,
               totalAllocated := b.totalAllocated + sz }) := by
  unfold allocate
  rw [if_neg (by omega), if_neg (by omega), if_pos hroom]

theorem runAllocs_ranges (sizes : List Nat) (a : FSlabAllocator) (hwf : WF a)
    (hs : ∀ sz ∈ sizes, 0 < sz ∧ sz ≤ a.slabCapacity) :
    (∀ r ∈ (runAllocs a sizes).1, nextAddr a ≤ r.1 ∧
      WithinOneSlab a.slabCapacity r) ∧
    (runAllocs a sizes).1.Pairwise RangesDisjoint := by
  induction sizes generalizing a with
  | nil =>
    exact ⟨fun r hr => absurd hr (by simp [runAllocs]),
      by simp [runAllocs]⟩
  | cons sz rest ih =>
    cases halloc : allocate a sz with
    | error e =>
      have hru : runAllocs a (sz :: rest) = runAllocs a rest := by
        conv_lhs => simp only [runAllocs]
        rw [halloc]
      rw [hru]
      exact ih a hwf (fun x hx => hs x (List.mem_cons_of_mem _ hx))
    | ok r =>
      obtain ⟨addr, a1⟩ := r
      have hru : runAllocs a (sz :: rest) =
          ((addr, sz) :: (runAllocs a1 rest).1, (runAllocs a1 rest).2) := by
        conv_lhs => simp only [runAllocs]
        rw [halloc]
      rw [hru]
      obtain ⟨hpos, hcap, hcapeq, -, hwf1, hlo, hhi, -, -, -, -, hslab⟩ :=
        allocate_ok_spec hwf halloc
      obtain ⟨ih1, ih2⟩ := ih a1 hwf1 (fun x hx =>
        ⟨(hs x (List.mem_cons_of_mem _ hx)).1,
         hcapeq ▸ (hs x (List.mem_cons_of_mem _ hx)).2⟩)
      refine ⟨?_, ?_⟩
      · intro r hr
        rcases List.mem_cons.1 hr with hr | hr
        · subst hr
          exact ⟨hlo, hslab⟩
        · obtain ⟨hr1, hr2⟩ := ih1 r hr
          exact ⟨by omega, hcapeq ▸ hr2⟩
      · refine List.Pairwise.cons ?_ ih2
        intro r hr
        obtain ⟨hr1, -⟩ := ih1 r hr
        exact Or.inl (by simp only []; omega)

/-! ## Claim theorems -/

/-- C1: for all terminator-free text values T1 ≠ T2, interning T1 and then
T2 (when both calls succeed) returns distinct references, even when their
32-bit content hashes collide — the hash function is universally
quantified, so colliding hashes are covered, and the witness instantiates
it with a constant (everywhere-colliding) hash. -/
theorem c1_no_aliasing_across_distinct_content
    (hashF : List TChar → Nat) (s : FStringStore) (t1 t2 : List TChar)
    (a1 a2 : Nat) (hg : GoodStore s) (h1 : 0 ∉ t1) (h2 : 0 ∉ t2)
    (hne : t1 ≠ t2)
    (hok1 : internRef hashF s t1 = Except.ok a1)
    (hok2 : internRef hashF (internSt hashF s t1) t2 = Except.ok a2) :
    a1 ≠ a2 := by
  obtain ⟨g1, -, -, -, -, -, -, -, g9, -⟩ := intern_spec hashF s t1 hg h1
  obtain ⟨hr1, hb1, -⟩ := g9 a1 hok1
  obtain ⟨-, -, -, -, -, -, k7, -, k9, -⟩ :=
    intern_spec hashF (internSt hashF s t1) t2 g1 h2
  obtain ⟨hr2, hb2, -⟩ := k9 a2 hok2
  have hr1' : readRange (internSt hashF (internSt hashF s t1) t2).alloc.mem a1
      (t1.length + 1) = some (t1 ++ [0]) := by
    rw [← hr1]
    exact readRange_agree _ _ _ _ (fun j hj1 hj2 => k7 j (by omega))
  intro heq
  subst heq
  exact hne (stored_texts_unique _ a1 t1 t2 hr1' hr2 h1 h2)

/-- C2: interning the same terminator-free text twice (serialized) returns
the same reference the second time and leaves the store state — in
particular the slab allocator's total allocated unit count — unchanged: the
second call performs no allocation. -/
theorem c2_idempotent_dedup (hashF : List TChar → Nat) (s : FStringStore)
    (t : List TChar) (addr : Nat) (hg : GoodStore s) (ht : 0 ∉ t)
    (hok : internRef hashF s t = Except.ok addr) :
    intern hashF (internSt hashF s t) t =
      (Except.ok addr, internSt hashF s t) ∧
    (internSt hashF (internSt hashF s t) t).alloc.totalAllocated =
      (internSt hashF s t).alloc.totalAllocated := by
  obtain ⟨-, -, -, -, -, -, -, -, g9, -⟩ := intern_spec hashF s t hg ht
  obtain ⟨hr, hb, hf⟩ := g9 addr hok
  have hcmp : readCString (internSt hashF s t).alloc.mem addr = t :=
    readCString_of_readRange t _ _ hr ht
  have heq := intern_eq_hit hashF (internSt hashF s t) t addr hf hcmp
  refine ⟨heq, ?_⟩
  show (intern hashF (internSt hashF s t) t).2.alloc.totalAllocated =
    (internSt hashF s t).alloc.totalAllocated
  rw [heq]

/-- C3: for every terminator-free text value T (including the empty one),
reading back `length + 1` units at the reference returned by a successful
intern yields exactly T followed by one terminator unit; and on a miss
(no existing entry whose stored content equals T) the store requests
exactly `length + 1` units from the allocator. -/
theorem c3_content_fidelity (hashF : List TChar → Nat) (s : FStringStore)
    (t : List TChar) (addr : Nat) (hg : GoodStore s) (ht : 0 ∉ t)
    (hok : internRef hashF s t = Except.ok addr) :
    readRange (internSt hashF s t).alloc.mem addr (t.length + 1) =
      some (t ++ [0]) ∧
    ((∀ a0, findStored s.storedStrings (hashF t % 4294967296) = some a0 →
        readCString s.alloc.mem a0 ≠ t) →
      (internSt hashF s t).alloc.totalAllocated =
        s.alloc.totalAllocated + (t.length + 1)) := by
  obtain ⟨-, -, -, -, -, -, -, -, g9, g10⟩ := intern_spec hashF s t hg ht
  exact ⟨(g9 addr hok).1, g10 addr hok⟩

/-- C4: for every sequence of allocate calls, each requesting a positive
size no larger than the slab capacity, the returned ranges are pairwise
non-overlapping and none of them spans two slabs. -/
theorem c4_allocator_range_disjointness (a : FSlabAllocator)
    (sizes : List Nat) (hwf : WF a)
    (hs : ∀ sz ∈ sizes, 0 < sz ∧ sz ≤ a.slabCapacity) :
    (runAllocs a sizes).1.Pairwise RangesDisjoint ∧
    (∀ r ∈ (runAllocs a sizes).1, WithinOneSlab a.slabCapacity r) := by
  obtain ⟨h1, h2⟩ := runAllocs_ranges sizes a hwf hs
  exact ⟨h2, fun r hr => (h1 r hr).2⟩

/-- C5: the bytes designated by a reference returned by a successful intern
of a terminator-free text T remain unchanged — T followed by its terminator
is still read back at the same address — after any number of subsequent
intern calls on the same store, including calls that force acquisition of
additional slabs. -/
theorem c5_stability_under_growth (hashF : List TChar → Nat)
    (s : FStringStore) (t : List TChar) (addr : Nat)
    (ts : List (List TChar)) (hg : GoodStore s) (ht : 0 ∉ t)
    (hts : ∀ u ∈ ts, 0 ∉ u)
    (hok : internRef hashF s t = Except.ok addr) :
    readRange (internList hashF (internSt hashF s t) ts).alloc.mem addr
      (t.length + 1) = some (t ++ [0]) := by
  obtain ⟨g1, -, -, -, -, -, -, -, g9, -⟩ := intern_spec hashF s t hg ht
  obtain ⟨hr, hb, -⟩ := g9 addr hok
  obtain ⟨-, -, l7⟩ := internList_spec hashF ts (internSt hashF s t) g1 hts
  rw [← hr]
  exact readRange_agree _ _ _ _ (fun j hj1 hj2 => l7 j (by omega))

/-- C7: intern never leaves a partial-success state: on an allocator
failure the store state is exactly the old one (so no partial entry is
visible to any future lookup), and on success the hash is recorded in the
lookup table and the bytes plus terminator are fully written. -/
theorem c7_no_partial_success (hashF : List TChar → Nat) (s : FStringStore)
    (t : List TChar) (hg : GoodStore s) (ht : 0 ∉ t) :
    (∀ e, internRef hashF s t = Except.error e → internSt hashF s t = s) ∧
    (∀ addr, internRef hashF s t = Except.ok addr →
      findStored (internSt hashF s t).storedStrings (hashF t % 4294967296) =
        some addr ∧
      readRange (internSt hashF s t).alloc.mem addr (t.length + 1) =
        some (t ++ [0])) := by
  obtain ⟨-, -, -, -, -, -, -, g8, g9, -⟩ := intern_spec hashF s t hg ht
  exact ⟨g8, fun addr hok => ⟨(g9 addr hok).2.2, (g9 addr hok).1⟩⟩

/-- C9: the two public intern entry points agree: for every null-terminated
buffer holding a terminator-free content `l` followed by the terminator
(and anything after it), `Store` on the raw pointer returns the same
reference and leaves the store in the same state as `Store` on a string
view of `l`. -/
theorem c9_overloads_agree (hashF : List TChar → Nat) (s : FStringStore)
    (l rest : List TChar) (hl : 0 ∉ l) :
    storeCString hashF s (l ++ 0 :: rest) = intern hashF s l := by
  unfold storeCString
  rw [takeWhile_cstring l rest hl]

/-- C10: intern is deterministic: two runs of the same sequence of intern
calls on two stores starting from the same initial state produce, call by
call, equal results (hence references to identical stored contents) and
leave both stores with equal lookup tables, equal memory, equal buffer
cursors and equal block counts. -/
theorem c10_deterministic (hashF : List TChar → Nat)
    (s1 s2 : FStringStore) (ts : List (List TChar)) (h : s1 = s2) :
    (internTrace hashF s1 ts).1 = (internTrace hashF s2 ts).1 ∧
    (internTrace hashF s1 ts).2.storedStrings =
      (internTrace hashF s2 ts).2.storedStrings ∧
    (internTrace hashF s1 ts).2.alloc.mem =
      (internTrace hashF s2 ts).2.alloc.mem ∧
    (internTrace hashF s1 ts).2.alloc.bufferLeft =
      (internTrace hashF s2 ts).2.alloc.bufferLeft ∧
    (internTrace hashF s1 ts).2.alloc.blockCount =
      (internTrace hashF s2 ts).2.alloc.blockCount := by
  subst h
  exact ⟨rfl, rfl, rfl, rfl, rfl⟩

/-- C6: a request whose size exactly equals the active slab's remaining
space is served from the current slab without acquiring a new one; the next
request of any positive size (at most the slab capacity, with slab budget
remaining) triggers acquisition of a new slab, increasing the slab count by
one; and the slab count never decreases across any successful allocation. -/
theorem c6_slab_growth_boundary (a : FSlabAllocator) (size size2 : Nat)
    (hwf : WF a) (hpos : 0 < size) (hexact : size = a.bufferLeft)
    (hpos2 : 0 < size2) (hcap2 : size2 ≤ a.slabCapacity)
    (hbudget : a.blockCount < a.maxSlabs) :
    ∃ addr a', allocate a size = Except.ok (addr, a') ∧
      a'.blockCount = a.blockCount ∧ a'.bufferLeft = 0 ∧
      (∃ addr2 a'', allocate a' size2 = Except.ok (addr2, a'') ∧
        a''.blockCount = a.blockCount + 1) ∧
      (∀ b szb rb b', allocate b szb = Except.ok (rb, b') →
        b.blockCount ≤ b'.blockCount) := by
  obtain ⟨hbl, hlen, hz⟩ := hwf
  have h1 := allocate_in_slab a size hpos (by omega) (by omega)
  refine ⟨nextAddr a,
    { a with bufferLeft := a.bufferLeft - size,
             totalAllocated := a.totalAllocated + size },
    h1, rfl, show a.bufferLeft - size = 0 by omega, ?_,
    fun b szb rb b' h => allocate_blockCount_mono b szb rb b' h⟩
  have h2 := allocate_grows
    { a with bufferLeft := a.bufferLeft - size,
             totalAllocated := a.totalAllocated + size }
    size2 hpos2 (show size2 ≤ a.slabCapacity from hcap2)
    (show a.bufferLeft - size < size2 by omega)
    (show a.blockCount < a.maxSlabs from hbudget)
  exact ⟨_, _, h2, rfl⟩

/-- C8 counterexample: with slab capacity 16 fixed at construction, after
interning "ab" twice, interning a 20-unit string does not acquire a second
slab and return a fresh reference as the claim states: the request for 21
units exceeds one slab's 16-unit capacity, is rejected as InvalidRequest
(spec.md §7), and the slab count stays 1, not 2. -/
theorem c8_counterexample :
    internRef hashScenario scen2 text20 =
      Except.error EAllocError.invalidRequest ∧
    (internSt hashScenario scen2 text20).alloc.blockCount = 1 := by
  exact ⟨by decide, by decide⟩

/-- C8 amended: the slab capacity is fixed at construction; with it set to
16 units, intern "ab" returns reference A = 0 with 3 units allocated
including the terminator; intern "ab" again returns A with the allocator
state unchanged; interning a 14-unit string — 15 units including the
terminator, more than the 13 units remaining but within one slab's
capacity — acquires a second slab and returns reference B = 16 distinct
from A; the slab count is then 2. -/
theorem c8_end_to_end_scenario :
    internRef hashScenario scen0 textAB = Except.ok 0 ∧
    scen1.alloc.totalAllocated = 3 ∧
    scen1.alloc.blockCount = 1 ∧
    internRef hashScenario scen1 textAB = Except.ok 0 ∧
    scen2 = scen1 ∧
    internRef hashScenario scen2 text14 = Except.ok 16 ∧
    internRef hashScenario scen2 text14 ≠ internRef hashScenario scen0 textAB ∧
    (internSt hashScenario scen2 text14).alloc.blockCount = 2 := by
  exact ⟨by decide, by decide, by decide, by decide, by decide, by decide,
    by decide, by decide⟩

/-! ## Witnesses -/

/-- Witness for C1: with the everywhere-colliding constant hash, interning
the distinct one-unit texts 1 and 2 yields references 0 and 2. -/
theorem c1_witness : (0 : Nat) ≠ 2 :=
  c1_no_aliasing_across_distinct_content hashZero (initStore 8 4) [1] [2] 0 2
    (goodStore_init 8 4) (by decide) (by decide) (by decide) (by decide)
    (by decide)

/-- Witness for C2 at the one-unit text 1 on a fresh store. -/
theorem c2_witness :
    intern hashZero (internSt hashZero (initStore 8 4) [1]) [1] =
      (Except.ok 0, internSt hashZero (initStore 8 4) [1]) ∧
    (internSt hashZero (internSt hashZero (initStore 8 4) [1])
      [1]).alloc.totalAllocated =
      (internSt hashZero (initStore 8 4) [1]).alloc.totalAllocated :=
  c2_idempotent_dedup hashZero (initStore 8 4) [1] 0 (goodStore_init 8 4)
    (by decide) (by decide)

/-- Witness for C3 at the one-unit text 1 on a fresh store. -/
theorem c3_witness :
    readRange (internSt hashZero (initStore 8 4) [1]).alloc.mem 0 2 =
      some [1, 0] :=
  (c3_content_fidelity hashZero (initStore 8 4) [1] 0 (goodStore_init 8 4)
    (by decide) (by decide)).1

/-- Witness for C4 on requests 2, 3 and 4 against a fresh capacity-4,
budget-2 allocator (the third request runs out of slabs and returns no
range). -/
theorem c4_witness :
    (runAllocs (initAllocator 4 2) [2, 3, 4]).1.Pairwise RangesDisjoint :=
  (c4_allocator_range_disjointness (initAllocator 4 2) [2, 3, 4]
    (by decide) (by decide)).1

/-- Witness for C5: the text read back at reference 0 survives two
subsequent interning calls that each force a new slab. -/
theorem c5_witness :
    readRange (internList hashZero (internSt hashZero (initStore 4 8) [1])
      [[2, 3, 4], [5, 6, 7]]).alloc.mem 0 2 = some [1, 0] :=
  c5_stability_under_growth hashZero (initStore 4 8) [1] 0
    [[2, 3, 4], [5, 6, 7]] (goodStore_init 4 8) (by decide) (by decide)
    (by decide)

/-- Witness for C6 on the concrete mid-life allocator: the 3-unit request
exactly exhausts its room; a 2-unit request follows. -/
theorem c6_witness :
    ∃ addr a', allocate allocWitness 3 = Except.ok (addr, a') ∧
      a'.blockCount = allocWitness.blockCount ∧ a'.bufferLeft = 0 ∧
      (∃ addr2 a'', allocate a' 2 = Except.ok (addr2, a'') ∧
        a''.blockCount = allocWitness.blockCount + 1) ∧
      (∀ b szb rb b', allocate b szb = Except.ok (rb, b') →
        b.blockCount ≤ b'.blockCount) :=
  c6_slab_growth_boundary allocWitness 3 2 (by decide) (by decide)
    (by decide) (by decide) (by decide) (by decide)

/-- Witness for C7 on a store whose allocator has a zero slab budget, so
the interning call actually fails with OutOfMemory. -/
theorem c7_witness :
    (∀ e, internRef hashZero (initStore 4 0) [1] = Except.error e →
      internSt hashZero (initStore 4 0) [1] = initStore 4 0) ∧
    (∀ addr, internRef hashZero (initStore 4 0) [1] = Except.ok addr →
      findStored (internSt hashZero (initStore 4 0) [1]).storedStrings
        (hashZero [1] % 4294967296) = some addr ∧
      readRange (internSt hashZero (initStore 4 0) [1]).alloc.mem addr
        ([1].length + 1) = some ([1] ++ [0])) :=
  c7_no_partial_success hashZero (initStore 4 0) [1] (goodStore_init 4 0)
    (by decide)

/-- Witness for C9 on the buffer holding 1, 2, a terminator and a trailing
unit. -/
theorem c9_witness :
    storeCString hashZero (initStore 8 4) ([1, 2] ++ 0 :: [7]) =
      intern hashZero (initStore 8 4) [1, 2] :=
  c9_overloads_agree hashZero (initStore 8 4) [1, 2] [7] (by decide)

/-- Witness for C10 on two copies of a fresh store and a two-call
sequence. -/
theorem c10_witness :
    (internTrace hashZero (initStore 8 4) [[1], [2]]).1 =
      (internTrace hashZero (initStore 8 4) [[1], [2]]).1 :=
  (c10_deterministic hashZero (initStore 8 4) (initStore 8 4) [[1], [2]]
    rfl).1

end TraceModel
